import Mathlib

/-!
Verification of the configtrace change-auditing engine against its design
specification.  The Rust source is embedded shallowly: `HashMap<String,String>`
becomes an association list with first-match lookup, `BTreeSet` iteration
becomes a sorted-insert fold, fallible operations return `Except`/`Option`,
and external crates (serde parsers, the regex and glob matchers) appear as
explicit function parameters or spec-modelled definitions.
-/

namespace Configtrace

/-- A flattened config map: string path to string value.  Models
`HashMap<String, String>`; lookup takes the first matching entry, so a
list with duplicate keys denotes the same map as its first-occurrence
restriction. -/
abbrev FlatMap := List (String × String)

/-- Map lookup, models `HashMap::get`. -/
def lookupKey (m : FlatMap) (k : String) : Option String :=
  (m.find? (fun e => e.1 == k)).map (·.2)

/-- Models `HashMap::contains_key`. -/
def containsKey (m : FlatMap) (k : String) : Bool :=
  m.any (fun e => e.1 == k)

/-- How a config key changed between two states (src/git/models.rs). -/
inductive KeyChangeKind where
  | added
  | removed
  | changed
deriving DecidableEq, Repr

/-- A single key-level change within a config file (src/git/models.rs). -/
structure KeyChange where
  key : String
  kind : KeyChangeKind
  old_value : Option String
  new_value : Option String
deriving DecidableEq, Repr

/-- Sorted (strictly ascending) duplicate-free insertion; models inserting
one key into a `BTreeSet<&String>`. -/
def insertKey (k : String) : List String → List String
  | [] => [k]
  | x :: xs =>
    if k < x then k :: x :: xs
    else if k = x then x :: xs
    else x :: insertKey k xs

/-- The sorted union of the key sets of two maps; models collecting
`old.keys().chain(new.keys())` into a `BTreeSet` (src/git/differ.rs). -/
def allKeys (old new : FlatMap) : List String :=
  (old.map Prod.fst ++ new.map Prod.fst).foldl (fun acc k => insertKey k acc) []

/-- The change entry the differ emits for one key of the union, following the
`match (old.get(key), new.get(key))` arms of `diff_config_maps`. -/
def changeAt (old new : FlatMap) (k : String) : Option KeyChange :=
  match lookupKey old k, lookupKey new k with
  | none, some newVal =>
    some { key := k, kind := .added, old_value := none, new_value := some newVal }
  | some oldVal, none =>
    some { key := k, kind := .removed, old_value := some oldVal, new_value := none }
  | some oldVal, some newVal =>
    if oldVal ≠ newVal then
      some { key := k, kind := .changed, old_value := some oldVal, new_value := some newVal }
    else none
  | none, none => none

/-- Compare two flattened config maps and produce key-level changes
(src/git/differ.rs `diff_config_maps`). -/
def diff_config_maps (old new : FlatMap) : List KeyChange :=
  (allKeys old new).filterMap (changeAt old new)

-- ===== Differ lemmas =====

theorem mem_insertKey {a k : String} {l : List String} :
    a ∈ insertKey k l ↔ a = k ∨ a ∈ l := by
  induction l with
  | nil => simp [insertKey]
  | cons x xs ih =>
    unfold insertKey
    by_cases h1 : k < x
    · rw [if_pos h1]
      simp
    · by_cases h2 : k = x
      · rw [if_neg h1, if_pos h2]
        subst h2
        simp
      · rw [if_neg h1, if_neg h2]
        simp only [List.mem_cons, ih]
        tauto

theorem pairwise_insertKey {k : String} {l : List String}
    (h : l.Pairwise (· < ·)) : (insertKey k l).Pairwise (· < ·) := by
  induction l with
  | nil => simp [insertKey]
  | cons x xs ih =>
    unfold insertKey
    rcases List.pairwise_cons.mp h with ⟨hx, hxs⟩
    by_cases h1 : k < x
    · rw [if_pos h1]
      refine List.pairwise_cons.mpr ⟨?_, h⟩
      intro b hb
      rcases List.mem_cons.mp hb with rfl | hb
      · exact h1
      · exact lt_trans h1 (hx b hb)
    · by_cases h2 : k = x
      · rw [if_neg h1, if_pos h2]
        exact h
      · have hxk : x < k := by
          rcases lt_trichotomy k x with h | h | h
          · exact absurd h h1
          · exact absurd h h2
          · exact h
        rw [if_neg h1, if_neg h2]
        refine List.pairwise_cons.mpr ⟨?_, ih hxs⟩
        intro b hb
        rcases mem_insertKey.mp hb with rfl | hb
        · exact hxk
        · exact hx b hb

theorem nodup_of_pairwise_lt {l : List String} (h : l.Pairwise (· < ·)) :
    l.Nodup :=
  h.imp ne_of_lt

theorem pairwise_foldl_insertKey {ks : List String} {init : List String}
    (h : init.Pairwise (· < ·)) :
    (ks.foldl (fun acc k => insertKey k acc) init).Pairwise (· < ·) := by
  induction ks generalizing init with
  | nil => exact h
  | cons k ks ih => exact ih (pairwise_insertKey h)

theorem mem_foldl_insertKey {a : String} {ks : List String} {init : List String} :
    a ∈ ks.foldl (fun acc k => insertKey k acc) init ↔ a ∈ ks ∨ a ∈ init := by
  induction ks generalizing init with
  | nil => simp
  | cons k ks ih =>
    simp only [List.foldl_cons, ih, mem_insertKey, List.mem_cons]
    tauto

theorem allKeys_pairwise (old new : FlatMap) :
    (allKeys old new).Pairwise (· < ·) :=
  pairwise_foldl_insertKey List.Pairwise.nil

theorem mem_allKeys {a : String} {old new : FlatMap} :
    a ∈ allKeys old new ↔ a ∈ old.map Prod.fst ∨ a ∈ new.map Prod.fst := by
  unfold allKeys
  rw [mem_foldl_insertKey]
  simp

theorem allKeys_comm (old new : FlatMap) : allKeys old new = allKeys new old := by
  refine List.eq_of_perm_of_sorted
    ((List.perm_ext_iff_of_nodup
      (nodup_of_pairwise_lt (allKeys_pairwise old new))
      (nodup_of_pairwise_lt (allKeys_pairwise new old))).mpr ?_)
    (allKeys_pairwise old new) (allKeys_pairwise new old)
  intro a
  rw [mem_allKeys, mem_allKeys]
  tauto

theorem changeAt_key {old new : FlatMap} {k : String} {c : KeyChange}
    (h : changeAt old new k = some c) : c.key = k := by
  unfold changeAt at h
  rcases hold : lookupKey old k with _ | oldVal <;>
    rcases hnew : lookupKey new k with _ | newVal <;>
      simp [hold, hnew] at h
  · simp [← h]
  · simp [← h]
  · rcases h with ⟨_, h⟩
    simp [← h]

theorem changeAt_eq_none_iff {old new : FlatMap} {k : String} :
    changeAt old new k = none ↔ lookupKey old k = lookupKey new k := by
  unfold changeAt
  rcases hold : lookupKey old k with _ | oldVal <;>
    rcases hnew : lookupKey new k with _ | newVal <;> simp

theorem changeAt_shape {old new : FlatMap} {k : String} {c : KeyChange}
    (h : changeAt old new k = some c) :
    c.old_value = lookupKey old k ∧ c.new_value = lookupKey new k ∧
      c.old_value ≠ c.new_value ∧
      (c.kind = .added ↔ c.old_value = none) ∧
      (c.kind = .removed ↔ c.new_value = none) ∧
      (c.kind = .changed ↔ c.old_value ≠ none ∧ c.new_value ≠ none) := by
  unfold changeAt at h
  rcases hold : lookupKey old k with _ | oldVal <;>
    rcases hnew : lookupKey new k with _ | newVal <;>
      simp [hold, hnew] at h
  · cases h; simp
  · cases h; simp
  · rcases h with ⟨hne, h⟩
    cases h
    simp [hne]

theorem lookupKey_isSome_of_mem_keys {m : FlatMap} {k : String}
    (h : k ∈ m.map Prod.fst) : (lookupKey m k).isSome := by
  unfold lookupKey
  rcases List.mem_map.mp h with ⟨e, he, hk⟩
  have hfind : (List.find? (fun e => e.1 == k) m).isSome :=
    List.find?_isSome.mpr ⟨e, he, by simp [hk]⟩
  rcases hf : List.find? (fun e => e.1 == k) m with _ | e'
  · rw [hf] at hfind
    simp at hfind
  · rw [hf]
    simp

theorem mem_keys_of_lookupKey_isSome {m : FlatMap} {k : String}
    (h : (lookupKey m k).isSome) : k ∈ m.map Prod.fst := by
  unfold lookupKey at h
  rcases hf : List.find? (fun e => e.1 == k) m with _ | e
  · rw [hf] at h
    simp at h
  · have hmem := List.mem_of_find?_eq_some hf
    have hp := List.find?_some hf
    exact List.mem_map.mpr ⟨e, hmem, by simpa using hp⟩

/-- C1: `diff(old, new)` is sorted strictly ascending by key; it has exactly
one entry per key of the union of the two key sets on which the maps
disagree; each entry records the two lookups with the kind determined by
which side is present (Added: old none / new some, Removed: old some / new
none, Changed: both some and different); and `diff(A, A) = []`. -/
theorem diff_config_maps_spec (old new : FlatMap) :
    ((diff_config_maps old new).Pairwise (fun a b => a.key < b.key)) ∧
    (∀ c ∈ diff_config_maps old new,
      c.old_value = lookupKey old c.key ∧ c.new_value = lookupKey new c.key ∧
      c.old_value ≠ c.new_value ∧
      (c.kind = .added ↔ c.old_value = none) ∧
      (c.kind = .removed ↔ c.new_value = none) ∧
      (c.kind = .changed ↔ c.old_value ≠ none ∧ c.new_value ≠ none)) ∧
    (∀ k : String,
      (∃ c ∈ diff_config_maps old new, c.key = k) ↔
        ((k ∈ old.map Prod.fst ∨ k ∈ new.map Prod.fst) ∧
          lookupKey old k ≠ lookupKey new k)) ∧
    (∀ c ∈ diff_config_maps old new, ∀ c' ∈ diff_config_maps old new,
      c.key = c'.key → c = c') ∧
    (∀ A : FlatMap, diff_config_maps A A = []) := by
  refine ⟨?_, ?_, ?_, ?_, ?_⟩
  · rw [diff_config_maps, List.pairwise_filterMap]
    refine (allKeys_pairwise old new).imp_of_mem ?_
    intro a b _ _ hab c hc c' hc'
    rw [changeAt_key hc, changeAt_key hc']
    exact hab
  · intro c hc
    rcases List.mem_filterMap.mp hc with ⟨k, _, hk⟩
    have := changeAt_shape hk
    rwa [changeAt_key hk]
  · intro k
    constructor
    · rintro ⟨c, hc, rfl⟩
      rcases List.mem_filterMap.mp hc with ⟨k', hk', hck⟩
      have hkey := changeAt_key hck
      subst hkey
      refine ⟨mem_allKeys.mp hk', ?_⟩
      intro heq
      rw [changeAt_eq_none_iff.mpr heq] at hck
      exact Option.noConfusion hck
    · rintro ⟨hmem, hne⟩
      have hk : k ∈ allKeys old new := mem_allKeys.mpr hmem
      rcases hc : changeAt old new k with _ | c
      · exact absurd (changeAt_eq_none_iff.mp hc) hne
      · exact ⟨c, List.mem_filterMap.mpr ⟨k, hk, hc⟩, changeAt_key hc⟩
  · intro c hc c' hc' hkey
    rcases List.mem_filterMap.mp hc with ⟨k, _, hk⟩
    rcases List.mem_filterMap.mp hc' with ⟨k', _, hk'⟩
    have h1 := changeAt_key hk
    have h2 := changeAt_key hk'
    have : k = k' := by rw [← h1, ← h2, hkey]
    subst this
    rw [hk] at hk'
    exact (Option.some.injEq _ _).mp hk'
  · intro A
    rw [diff_config_maps]
    apply List.filterMap_eq_nil_iff.mpr
    intro k _
    exact changeAt_eq_none_iff.mpr rfl

/-- The claim's mirror on one change entry: Added and Removed swap, Changed
keeps its kind, and the two recorded values swap. -/
def mirrorChange (c : KeyChange) : KeyChange :=
  { key := c.key
    kind := match c.kind with
      | .added => .removed
      | .removed => .added
      | .changed => .changed
    old_value := c.new_value
    new_value := c.old_value }

theorem changeAt_swap (old new : FlatMap) (k : String) :
    changeAt new old k = (changeAt old new k).map mirrorChange := by
  unfold changeAt
  rcases hold : lookupKey old k with _ | oldVal <;>
    rcases hnew : lookupKey new k with _ | newVal <;>
      simp [hold, hnew, mirrorChange]
  by_cases h : oldVal = newVal
  · simp [h]
  · simp [h, Ne.symm h, mirrorChange]

/-- C5: `diff(B, A)` is exactly the entrywise mirror image of `diff(A, B)`:
same keys in the same order, Added and Removed swapped, Changed entries with
old and new values swapped; in particular the two have the same length. -/
theorem diff_config_maps_mirror (A B : FlatMap) :
    diff_config_maps B A = (diff_config_maps A B).map mirrorChange ∧
    (diff_config_maps B A).length = (diff_config_maps A B).length := by
  have hmain : diff_config_maps B A = (diff_config_maps A B).map mirrorChange := by
    rw [diff_config_maps, diff_config_maps, allKeys_comm B A, List.map_filterMap]
    exact List.filterMap_congr (fun k _ => changeAt_swap A B k)
  exact ⟨hmain, by rw [hmain, List.length_map]⟩

-- ===== Config flattener (src/policy/parser.rs) =====

/-- A parsed hierarchical config document; models `serde_json::Value`, the
uniform tree all three formats are converted into.  Numbers are restricted
to integers (every number in the claims, the spec's examples and the unit
tests is integral; floating-point rendering is out of scope of this
embedding). -/
inductive ConfigValue where
  | obj (members : List (String × ConfigValue))
  | arr (elems : List ConfigValue)
  | str (s : String)
  | num (n : Int)
  | boolean (b : Bool)
  | null

mutual

/-- Computable structural size of a document, used as recursion fuel. -/
def csize : ConfigValue → Nat
  | .obj members => 1 + csizeMembers members
  | .arr elems => 1 + csizeElems elems
  | .str _ => 1
  | .num _ => 1
  | .boolean _ => 1
  | .null => 1

/-- Size of an object's member list. -/
def csizeMembers : List (String × ConfigValue) → Nat
  | [] => 0
  | e :: rest => csize e.2 + csizeMembers rest

/-- Size of an array's element list. -/
def csizeElems : List ConfigValue → Nat
  | [] => 0
  | v :: rest => csize v + csizeElems rest

end

/-- Models `HashMap::insert`: replace the value under an existing key,
otherwise add a new entry. -/
def mapInsert (m : FlatMap) (k v : String) : FlatMap :=
  if containsKey m k then m.map (fun e => if e.1 == k then (k, v) else e)
  else m ++ [(k, v)]

/-- The key built for an object member: the Rust
`if prefix.is_empty() { k } else { format!("{}.{}", prefix, k) }`. -/
def appendField (base field : String) : String :=
  if base = "" then field else base ++ "." ++ field

/-- The key built for an array element: the Rust `format!("{}[{}]", prefix, i)`. -/
def appendIndex (base : String) (i : Nat) : String :=
  base ++ "[" ++ toString i ++ "]"

/-- Fuel-indexed engine of `flatten` (src/policy/parser.rs): recursively
flatten a `ConfigValue` into dot-notation keys, threading the map that
models the `&mut HashMap` out-parameter.  The fuel only bounds recursion
depth for Lean's termination checker; `flatten` below always supplies
enough, so no fuel-exhaustion branch is ever reached. -/
def flattenFuel : Nat → String → ConfigValue → FlatMap → FlatMap
  | 0, _, _, m => m
  | fuel + 1, pfx, v, m =>
    match v with
    | .obj members =>
      members.foldl (fun acc e => flattenFuel fuel (appendField pfx e.1) e.2 acc) m
    | .arr elems =>
      elems.enum.foldl (fun acc e => flattenFuel fuel (appendIndex pfx e.1) e.2 acc) m
    | .str s => mapInsert m pfx s
    | .num n => mapInsert m pfx (toString n)
    | .boolean b => mapInsert m pfx (if b then "true" else "false")
    | .null => mapInsert m pfx "null"

/-- `flatten` of src/policy/parser.rs. -/
def flatten (pfx : String) (value : ConfigValue) (m : FlatMap) : FlatMap :=
  flattenFuel (csize value) pfx value m

/-- The document's leaves with their paths, written the way the spec words
it: object nodes append `.field`, array nodes append `[index]`, scalar
leaves render to canonical text (numbers as decimal, booleans as
true/false, null as "null", strings verbatim).  This is the spec-side
description the code's `flatten` is compared against; same fuel device as
`flattenFuel`. -/
def leafListFuel : Nat → String → ConfigValue → List (String × String)
  | 0, _, _ => []
  | fuel + 1, base, v =>
    match v with
    | .obj members =>
      members.foldl (fun acc e => acc ++ leafListFuel fuel (appendField base e.1) e.2) []
    | .arr elems =>
      elems.enum.foldl (fun acc e => acc ++ leafListFuel fuel (appendIndex base e.1) e.2) []
    | .str s => [(base, s)]
    | .num n => [(base, toString n)]
    | .boolean b => [(base, if b then "true" else "false")]
    | .null => [(base, "null")]

/-- The leaves of a document with their flat paths and canonical texts. -/
def leafList (base : String) (value : ConfigValue) : List (String × String) :=
  leafListFuel (csize value) base value

/-- One step of rebuilding the flat map from the leaf list. -/
def insertEntry (acc : FlatMap) (e : String × String) : FlatMap :=
  mapInsert acc e.1 e.2

theorem csize_pos (v : ConfigValue) : 0 < csize v := by
  cases v <;> rw [csize] <;> omega

theorem csize_le_csizeMembers {l : List (String × ConfigValue)}
    {e : String × ConfigValue} (h : e ∈ l) : csize e.2 ≤ csizeMembers l := by
  induction l with
  | nil => cases h
  | cons x xs ih =>
    rw [csizeMembers]
    rcases List.mem_cons.mp h with rfl | h
    · omega
    · have := ih h
      omega

theorem csize_le_csizeElems {l : List ConfigValue} {v : ConfigValue}
    (h : v ∈ l) : csize v ≤ csizeElems l := by
  induction l with
  | nil => cases h
  | cons x xs ih =>
    rw [csizeElems]
    rcases List.mem_cons.mp h with rfl | h
    · omega
    · have := ih h
      omega

theorem snd_mem_of_mem_enumFrom {l : List ConfigValue} :
    ∀ {n : Nat} {p : Nat × ConfigValue}, p ∈ List.enumFrom n l → p.2 ∈ l := by
  induction l with
  | nil => intro n p h; cases h
  | cons x xs ih =>
    intro n p h
    rw [List.enumFrom_cons] at h
    rcases List.mem_cons.mp h with rfl | h
    · exact List.mem_cons_self _ _
    · exact List.mem_cons_of_mem _ (ih h)

theorem foldl_append_init {α β : Type} (g : α → List β) :
    ∀ (l : List α) (init : List β),
      l.foldl (fun acc x => acc ++ g x) init = init ++ l.foldl (fun acc x => acc ++ g x) [] := by
  intro l
  induction l with
  | nil => intro init; simp
  | cons x xs ih =>
    intro init
    rw [List.foldl_cons, List.foldl_cons, ih (init ++ g x), ih ([] ++ g x)]
    simp

theorem flattenFuel_loop {fuel : Nat}
    (IH : ∀ (pfx : String) (v : ConfigValue) (m : FlatMap), csize v ≤ fuel →
      flattenFuel fuel pfx v m = (leafListFuel fuel pfx v).foldl insertEntry m)
    {α : Type} (key : α → String) (val : α → ConfigValue) :
    ∀ (l : List α) (m : FlatMap), (∀ e ∈ l, csize (val e) ≤ fuel) →
      l.foldl (fun acc e => flattenFuel fuel (key e) (val e) acc) m =
        (l.foldl (fun acc e => acc ++ leafListFuel fuel (key e) (val e)) []).foldl
          insertEntry m := by
  intro l
  induction l with
  | nil => intro m _; simp
  | cons e rest ih =>
    intro m hsz
    rw [List.foldl_cons, List.foldl_cons,
      IH (key e) (val e) m (hsz e (List.mem_cons_self _ _)),
      ih _ (fun x hx => hsz x (List.mem_cons_of_mem _ hx)),
      foldl_append_init (fun x => leafListFuel fuel (key x) (val x)) rest ([] ++ _),
      List.nil_append, List.foldl_append]

theorem flattenFuel_eq_foldl :
    ∀ (fuel : Nat) (pfx : String) (v : ConfigValue) (m : FlatMap), csize v ≤ fuel →
      flattenFuel fuel pfx v m = (leafListFuel fuel pfx v).foldl insertEntry m := by
  intro fuel
  induction fuel with
  | zero =>
    intro pfx v m h
    have := csize_pos v
    omega
  | succ fuel ih =>
    intro pfx v m h
    cases v with
    | obj members =>
      rw [flattenFuel, leafListFuel]
      refine flattenFuel_loop ih _ _ members m ?_
      intro e he
      have h1 : csize e.2 ≤ csizeMembers members := csize_le_csizeMembers he
      rw [csize] at h
      omega
    | arr elems =>
      rw [flattenFuel, leafListFuel]
      refine flattenFuel_loop ih _ _ elems.enum m ?_
      intro e he
      have hmem : e.2 ∈ elems := by
        rw [List.enum_eq_enumFrom] at he
        exact snd_mem_of_mem_enumFrom he
      have h1 : csize e.2 ≤ csizeElems elems := csize_le_csizeElems hmem
      rw [csize] at h
      omega
    | str s => simp [flattenFuel, leafListFuel, insertEntry]
    | num n => simp [flattenFuel, leafListFuel, insertEntry]
    | boolean b => simp [flattenFuel, leafListFuel, insertEntry]
    | null => simp [flattenFuel, leafListFuel, insertEntry]

theorem flatten_eq_leafList_foldl (base : String) (v : ConfigValue) (m : FlatMap) :
    flatten base v m = (leafList base v).foldl insertEntry m :=
  flattenFuel_eq_foldl (csize v) base v m le_rfl

/-- C2: the code's `flatten` agrees with the spec's description of
flattening: starting from any map state it inserts, in document order,
exactly the (path, canonical text) pairs obtained by appending `.field`
for object members and `[index]` for array elements and rendering scalar
leaves canonically (`leafList`); in particular the document
{"a":{"b":[1,2]}} flattens to exactly {"a.b[0]": "1", "a.b[1]": "2"}. -/
theorem flatten_follows_spec :
    (∀ (base : String) (v : ConfigValue) (m : FlatMap),
      flatten base v m = (leafList base v).foldl insertEntry m) ∧
    flatten "" (.obj [("a", .obj [("b", .arr [.num 1, .num 2])])]) [] =
      [("a.b[0]", "1"), ("a.b[1]", "2")] := by
  refine ⟨flatten_eq_leafList_foldl, ?_⟩
  decide

theorem mapInsert_of_not_contains {m : FlatMap} {k v : String}
    (h : containsKey m k = false) : mapInsert m k v = m ++ [(k, v)] := by
  simp [mapInsert, h]

theorem containsKey_append {m1 m2 : FlatMap} {k : String} :
    containsKey (m1 ++ m2) k = (containsKey m1 k || containsKey m2 k) := by
  simp [containsKey, List.any_append]

theorem foldl_insertEntry_of_nodup :
    ∀ (l : List (String × String)) (m : FlatMap),
      (l.map Prod.fst).Nodup → (∀ k ∈ l.map Prod.fst, containsKey m k = false) →
      l.foldl insertEntry m = m ++ l := by
  intro l
  induction l with
  | nil =>
    intro m _ _
    simp
  | cons e rest ih =>
    intro m hnd hdisj
    rw [List.map_cons, List.nodup_cons] at hnd
    have he : containsKey m e.1 = false := hdisj e.1 (by simp)
    have h1 : insertEntry m e = m ++ [e] := mapInsert_of_not_contains he
    have hdisj2 : ∀ k ∈ rest.map Prod.fst, containsKey (m ++ [e]) k = false := by
      intro k hk
      have hk1 : containsKey m k = false := hdisj k (by simp [hk])
      have hne : ¬(e.1 == k) = true := by
        simp only [beq_iff_eq]
        intro hcontra
        exact hnd.1 (hcontra ▸ hk)
      have hk2 : containsKey [e] k = false := by
        simp [containsKey, hne]
      rw [containsKey_append, hk1, hk2]
      rfl
    rw [List.foldl_cons, h1, ih (m ++ [e]) hnd.2 hdisj2]
    simp

/-- C8 counterexample: in the valid JSON document
{"a": {"b": "y"}, "a.b": "x"} (two distinct leaves, object keys iterated in
serde_json's sorted order), the leaf at object key "a.b" and the leaf at
path a→b flatten to the same path "a.b", so the flat map holds one entry
for two original leaves — the claimed one-entry-per-leaf invariant fails. -/
theorem flatten_leaf_collision :
    (flatten "" (.obj [("a", .obj [("b", .str "y")]), ("a.b", .str "x")]) []).length = 1 ∧
    (leafList "" (.obj [("a", .obj [("b", .str "y")]), ("a.b", .str "x")])).length = 2 ∧
    (flatten "" (.obj [("a", .obj [("b", .str "y")]), ("a.b", .str "x")]) []).length ≠
      (leafList "" (.obj [("a", .obj [("b", .str "y")]), ("a.b", .str "x")])).length := by
  decide

/-- C8 (amended): for every parsed document whose leaves flatten to
pairwise-distinct paths, the flat map is exactly the leaf list — one entry
per original leaf, interior nodes never appearing as entries; without that
distinctness a later leaf overwrites an earlier one sharing its path. -/
theorem flatten_one_entry_per_leaf (v : ConfigValue)
    (h : ((leafList "" v).map Prod.fst).Nodup) :
    flatten "" v [] = leafList "" v ∧
    (flatten "" v []).length = (leafList "" v).length ∧
    (∀ e, e ∈ flatten "" v [] ↔ e ∈ leafList "" v) := by
  have heq : flatten "" v [] = leafList "" v := by
    rw [flatten_eq_leafList_foldl,
      foldl_insertEntry_of_nodup _ [] h (fun k _ => rfl)]
    simp
  refine ⟨heq, by rw [heq], fun e => by rw [heq]⟩

/-- C8 witness: the amended theorem applied to the document
{"a":{"b":[1,2]}}, whose two leaf paths are distinct. -/
theorem flatten_one_entry_per_leaf_witness :
    ((leafList "" (.obj [("a", .obj [("b", .arr [.num 1, .num 2])])])).map Prod.fst).Nodup ∧
    flatten "" (.obj [("a", .obj [("b", .arr [.num 1, .num 2])])]) [] =
      leafList "" (.obj [("a", .obj [("b", .arr [.num 1, .num 2])])]) :=
  ⟨by decide, (flatten_one_entry_per_leaf _ (by decide)).1⟩

-- ===== Policy rule engine (src/policy/models.rs, src/policy/evaluator.rs) =====

/-- Models Rust `str::starts_with`: a byte prefix of valid UTF-8 is exactly
a character-list prefix, so the embedding works on `String.data`. -/
def strStartsWith (s p : String) : Bool :=
  p.data.isPrefixOf s.data

/-- Four-level severity for policy violations (src/policy/models.rs). -/
inductive PolicySeverity where
  | critical
  | high
  | medium
  | low
deriving DecidableEq, Repr

/-- The check a rule performs (src/policy/models.rs `CheckDefinition`). -/
inductive CheckDefinition where
  | requiredKey (key : String)
  | forbiddenKey (key : String)
  | valueMatch (key : String) (regex : String)
  | valueEnum (key : String) (values : List String)
  | forbiddenValue (key : String) (value : String)
deriving DecidableEq, Repr

/-- A single rule within a policy file (src/policy/models.rs). -/
structure RuleDefinition where
  id : String
  description : Option String
  severity : PolicySeverity
  pattern : Option String
  check : CheckDefinition
deriving DecidableEq, Repr

/-- Top-level policy file structure (src/policy/models.rs). -/
structure PolicyFile where
  name : String
  description : Option String
  rules : List RuleDefinition
deriving DecidableEq, Repr

/-- A violation produced when a rule check fails (src/policy/models.rs). -/
structure Violation where
  rule_id : String
  rule_description : Option String
  severity : PolicySeverity
  file : String
  key : String
  message : String
deriving DecidableEq, Repr

/-- The key-existence test both RequiredKey and ForbiddenKey perform:
`flat_map.contains_key(key) || flat_map.keys().any(|k| k.starts_with(key + "."))`
(src/policy/evaluator.rs). -/
def keyExistsIn (m : FlatMap) (key : String) : Bool :=
  containsKey m key || m.any (fun e => strStartsWith e.1 (key ++ "."))

/-- Evaluate a single rule against a flattened config map
(src/policy/evaluator.rs `evaluate_rule`).  The regex matcher of the
ValueMatch arm is the external regex crate, taken as the parameter
`reMatch` (pattern, then candidate value). -/
def evaluate_rule (reMatch : String → String → Bool) (rule : RuleDefinition)
    (filePath : String) (m : FlatMap) : Option Violation :=
  match rule.check with
  | .requiredKey key =>
    if keyExistsIn m key then none
    else some { rule_id := rule.id, rule_description := rule.description,
                severity := rule.severity, file := filePath, key := key,
                message := "Required key \x27" ++ key ++ "\x27 is missing" }
  | .forbiddenKey key =>
    if keyExistsIn m key then
      some { rule_id := rule.id, rule_description := rule.description,
             severity := rule.severity, file := filePath, key := key,
             message := "Forbidden key \x27" ++ key ++ "\x27 is present" }
    else none
  | .valueMatch key regex =>
    match lookupKey m key with
    | some value =>
      if reMatch regex value then none
      else some { rule_id := rule.id, rule_description := rule.description,
                  severity := rule.severity, file := filePath, key := key,
                  message := "Value \x27" ++ value ++ "\x27 for key \x27" ++ key ++
                    "\x27 does not match pattern \x27" ++ regex ++ "\x27" }
    | none => none
  | .valueEnum key values =>
    match lookupKey m key with
    | some value =>
      if values.contains value then none
      else some { rule_id := rule.id, rule_description := rule.description,
                  severity := rule.severity, file := filePath, key := key,
                  message := "Value \x27" ++ value ++ "\x27 for key \x27" ++ key ++
                    "\x27 is not in allowed set: [" ++ String.intercalate ", " values ++ "]" }
    | none => none
  | .forbiddenValue key value =>
    match lookupKey m key with
    | some actual =>
      if actual == value then
        some { rule_id := rule.id, rule_description := rule.description,
               severity := rule.severity, file := filePath, key := key,
               message := "Forbidden value \x27" ++ value ++ "\x27 found for key \x27" ++
                 key ++ "\x27" }
      else none
    | none => none

/-- The spec-side wording of key existence: the key itself is present, or
some present key extends it by a dot (nested leaves under it). -/
def specKeyExists (m : FlatMap) (k : String) : Prop :=
  ∃ e ∈ m, e.1 = k ∨ (k ++ ".").data <+: e.1.data

theorem strStartsWith_iff {s p : String} :
    strStartsWith s p = true ↔ p.data <+: s.data :=
  List.isPrefixOf_iff_prefix

theorem keyExistsIn_iff {m : FlatMap} {k : String} :
    keyExistsIn m k = true ↔ specKeyExists m k := by
  unfold keyExistsIn specKeyExists containsKey strStartsWith
  rw [Bool.or_eq_true, List.any_eq_true, List.any_eq_true]
  constructor
  · rintro (⟨e, he, hk⟩ | ⟨e, he, hp⟩)
    · exact ⟨e, he, Or.inl (by simpa using hk)⟩
    · exact ⟨e, he, Or.inr (List.isPrefixOf_iff_prefix.mp hp)⟩
  · rintro ⟨e, he, hk | hp⟩
    · exact Or.inl ⟨e, he, by simp [hk]⟩
    · exact Or.inr ⟨e, he, List.isPrefixOf_iff_prefix.mpr hp⟩

theorem missing_infix_message (k : String) :
    "missing".data <:+: ("Required key \x27" ++ k ++ "\x27 is missing").data := by
  have h1 : "missing".data <:+ "\x27 is missing".data := by decide
  have h2 : "\x27 is missing".data <:+
      ("Required key \x27" ++ k ++ "\x27 is missing").data := by
    rw [String.data_append]
    exact List.suffix_append _ _
  exact (h1.trans h2).isInfix

/-- C3: for any rule and flat map, RequiredKey(k) yields a violation whose
message contains "missing" exactly when neither k itself nor any key
extending k by "." exists in the map, and ForbiddenKey(k) yields a
violation exactly when that same existence test succeeds; a parent key
whose nested leaves are present counts as present. -/
theorem evaluate_rule_key_existence
    (rm : String → String → Bool) (fp : String) (m : FlatMap)
    (rid : String) (dsc : Option String) (sev : PolicySeverity)
    (pat : Option String) (k : String) :
    ((∃ v, evaluate_rule rm ⟨rid, dsc, sev, pat, .requiredKey k⟩ fp m = some v ∧
        "missing".data <:+: v.message.data) ↔ ¬ specKeyExists m k) ∧
    ((evaluate_rule rm ⟨rid, dsc, sev, pat, .forbiddenKey k⟩ fp m).isSome ↔
      specKeyExists m k) := by
  constructor
  · by_cases hex : keyExistsIn m k = true
    · have hspec := keyExistsIn_iff.mp hex
      simp [evaluate_rule, hex, hspec]
    · have hspec : ¬ specKeyExists m k := fun hs => hex (keyExistsIn_iff.mpr hs)
      constructor
      · intro _
        exact hspec
      · intro _
        exact ⟨{ rule_id := rid, rule_description := dsc, severity := sev, file := fp,
                 key := k, message := "Required key \x27" ++ k ++ "\x27 is missing" },
               by simp [evaluate_rule, hex], missing_infix_message k⟩
  · by_cases hex : keyExistsIn m k = true
    · have hspec := keyExistsIn_iff.mp hex
      simp [evaluate_rule, hex, hspec]
    · have hspec : ¬ specKeyExists m k := fun hs => hex (keyExistsIn_iff.mpr hs)
      simp [evaluate_rule, hex, hspec]

/-- C10: when every key of the map lying under k is array-indexed (k[0],
k[1].x, ...) and k itself is absent, RequiredKey(k) reports a violation:
the existence test accepts only k itself or keys extending k by ".", so
array-element children do not count as presence of their parent key. -/
theorem required_key_ignores_array_children
    (rm : String → String → Bool) (fp : String) (m : FlatMap)
    (rid : String) (dsc : Option String) (sev : PolicySeverity)
    (pat : Option String) (k : String)
    (h : ∀ e ∈ m, strStartsWith e.1 k = true → strStartsWith e.1 (k ++ "[") = true) :
    ∃ v, evaluate_rule rm ⟨rid, dsc, sev, pat, .requiredKey k⟩ fp m = some v ∧
      "missing".data <:+: v.message.data := by
  have hex : ¬ keyExistsIn m k = true := by
    intro htrue
    rcases keyExistsIn_iff.mp htrue with ⟨e, he, heq | hdot⟩
    · have h1 : strStartsWith e.1 k = true := by
        rw [strStartsWith_iff, heq]
      have h2 := h e he h1
      rw [strStartsWith_iff, heq] at h2
      have hlen := List.IsPrefix.length_le h2
      have he2 : (k ++ "[").data.length = k.data.length + 1 := by
        rw [String.data_append, List.length_append]
        rfl
      omega
    · have h1 : strStartsWith e.1 k = true := by
        rw [strStartsWith_iff]
        refine List.IsPrefix.trans ?_ hdot
        rw [String.data_append]
        exact List.prefix_append _ _
      have h2 := h e he h1
      rw [strStartsWith_iff] at h2
      rw [String.data_append] at h2 hdot
      have hp : k.data ++ ("." : String).data = k.data ++ ("[" : String).data := by
        refine List.IsPrefix.eq_of_length ?_ ?_
        · exact List.prefix_of_prefix_length_le hdot h2 (by simp)
        · simp
      simp at hp
  exact ⟨{ rule_id := rid, rule_description := dsc, severity := sev, file := fp,
           key := k, message := "Required key \x27" ++ k ++ "\x27 is missing" },
         by simp [evaluate_rule, hex], missing_infix_message k⟩

/-- C10 witness: the theorem applied to the map {"k[0]": "1", "k[1].x": "2"}. -/
theorem required_key_ignores_array_children_witness :
    (∀ e ∈ ([("k[0]", "1"), ("k[1].x", "2")] : FlatMap),
      strStartsWith e.1 "k" = true → strStartsWith e.1 ("k" ++ "[") = true) ∧
    (∃ v, evaluate_rule (fun _ _ => true)
        ⟨"r1", none, .medium, none, .requiredKey "k"⟩ "app.yaml"
        [("k[0]", "1"), ("k[1].x", "2")] = some v ∧
      "missing".data <:+: v.message.data) :=
  ⟨by decide,
   required_key_ignores_array_children (fun _ _ => true) "app.yaml"
     [("k[0]", "1"), ("k[1].x", "2")] "r1" none .medium none "k" (by decide)⟩

-- ===== Rule file scoping (src/policy/evaluator.rs `rule_applies_to_file`) =====

/-- Split a character list at a separator, keeping empty segments
(the behaviour of splitting a path on every occurrence of a slash). -/
def splitOnChar (sep : Char) : List Char → List (List Char)
  | [] => [[]]
  | c :: rest =>
    let r := splitOnChar sep rest
    if c = sep then [] :: r
    else
      match r with
      | [] => [[c]]
      | h :: t => (c :: h) :: t

/-- Models `Path::file_name` for the Unix-style relative paths this
program handles: the last path component, ignoring empty and "."
components; `none` when no component remains or the last one is "..". -/
def fileNameChars (s : String) : Option (List Char) :=
  let comps := (splitOnChar (Char.ofNat 0x2f) s.data).filter
    (fun c => !c.isEmpty && c != [Char.ofNat 46])
  match comps.getLast? with
  | some c => if c = [Char.ofNat 46, Char.ofNat 46] then none else some c
  | none => none

/-- `Path::file_name` as a string. -/
def fileName (s : String) : Option String :=
  (fileNameChars s).map String.mk

/-- Modelled from the spec: one token of a compiled glob pattern.  The glob
crate the rule patterns are compiled with is an external dependency, not
part of src/; the spec glossary describes a glob as "a wildcard
path-matching pattern (`*`, `**`)". -/
inductive GlobToken where
  | lit (c : Char)
  | anyChar
  | anySeq
deriving DecidableEq, Repr

/-- Modelled from the spec: tokenize a glob pattern — `*` an arbitrary
sequence, `?` a single character, everything else literal.  Under the glob
crate's default MatchOptions a wildcard may match a separator, so
consecutive stars (`**`) behave exactly like one star and need no separate
token; character classes are outside the model. -/
def globTokenize : List Char → List GlobToken
  | [] => []
  | c :: rest =>
    (if c = Char.ofNat 42 then GlobToken.anySeq
     else if c = Char.ofNat 63 then GlobToken.anyChar
     else GlobToken.lit c) :: globTokenize rest

/-- Modelled from the spec: backtracking glob matcher.  The fuel only
bounds recursion for the termination checker; every step shortens
tokens+text by at least one, so the fuel `globMatch` supplies is always
enough, and at zero fuel both lists are empty and the match succeeds. -/
def globMatchFuel : Nat → List GlobToken → List Char → Bool
  | 0, ts, s => ts.isEmpty && s.isEmpty
  | fuel + 1, ts, s =>
    match ts, s with
    | [], [] => true
    | [], _ :: _ => false
    | .anySeq :: ts2, s =>
      globMatchFuel fuel ts2 s ||
        (match s with
         | [] => false
         | _ :: s2 => globMatchFuel fuel (.anySeq :: ts2) s2)
    | .anyChar :: ts2, _ :: s2 => globMatchFuel fuel ts2 s2
    | .lit c :: ts2, d :: s2 => c == d && globMatchFuel fuel ts2 s2
    | .anyChar :: _, [] => false
    | .lit _ :: _, [] => false

/-- Modelled from the spec: whether a glob pattern matches a text; stands
for both `glob::Pattern::matches` and `matches_path` (identical on the
valid UTF-8 paths this program handles). -/
def globMatch (pat text : String) : Bool :=
  let ts := globTokenize pat.data
  globMatchFuel (ts.length + text.data.length) ts text.data

/-- Models Rust `str::contains(char)`. -/
def strContainsChar (s : String) (c : Char) : Bool :=
  s.data.contains c

/-- Models Rust `str::contains(&str)`: some tail of the text starts with
the needle. -/
def strContainsSub (s sub : String) : Bool :=
  s.data.tails.any (fun t => sub.data.isPrefixOf t)

/-- Check if a rule's glob pattern matches the given file path
(src/policy/evaluator.rs `rule_applies_to_file`). -/
def rule_applies_to_file (rule : RuleDefinition) (filePath : String) : Bool :=
  match rule.pattern with
  | none => true
  | some pat =>
    if strContainsChar pat (Char.ofNat 47) || strContainsSub pat "**" then
      globMatch pat filePath
    else
      match fileName filePath with
      | some n => globMatch pat n
      | none => false

theorem strContainsChar_iff {s : String} {c : Char} :
    strContainsChar s c = true ↔ c ∈ s.data :=
  List.elem_iff

theorem strContainsSub_iff {s sub : String} :
    strContainsSub s sub = true ↔ sub.data <:+: s.data := by
  unfold strContainsSub
  rw [List.any_eq_true]
  constructor
  · rintro ⟨t, ht, hp⟩
    exact List.infix_iff_prefix_suffix.mpr
      ⟨t, List.isPrefixOf_iff_prefix.mp hp, (List.mem_tails _ _).mp ht⟩
  · intro h
    rcases List.infix_iff_prefix_suffix.mp h with ⟨t, hp, hsuf⟩
    exact ⟨t, (List.mem_tails _ _).mpr hsuf, List.isPrefixOf_iff_prefix.mpr hp⟩

/-- C6: a rule with no pattern applies to every file; a pattern containing
a slash or `**` is glob-matched against the full repository-relative path;
every other pattern is glob-matched against the file base name only (and
fails when the path has no base name).  The concrete conjuncts replay the
scoping behaviour on sample paths: `*.yaml` matches by base name even for
nested paths, `envs/**/*.yaml` matches by full path. -/
theorem rule_applies_to_file_spec (rule : RuleDefinition) (filePath : String) :
    (rule.pattern = none → rule_applies_to_file rule filePath = true) ∧
    (∀ pat, rule.pattern = some pat →
      ((Char.ofNat 0x2f ∈ pat.data ∨ "**".data <:+: pat.data) →
        rule_applies_to_file rule filePath = globMatch pat filePath) ∧
      (¬(Char.ofNat 0x2f ∈ pat.data ∨ "**".data <:+: pat.data) →
        rule_applies_to_file rule filePath =
          ((fileName filePath).map (globMatch pat)).getD false)) ∧
    (rule_applies_to_file ⟨"r1", none, .low, some "*.yaml", .requiredKey "x"⟩
        "config.yaml" = true ∧
     rule_applies_to_file ⟨"r1", none, .low, some "*.yaml", .requiredKey "x"⟩
        "config.json" = false ∧
     rule_applies_to_file ⟨"r1", none, .low, some "*.yaml", .requiredKey "x"⟩
        "deep/nested/config.yaml" = true ∧
     rule_applies_to_file ⟨"r1", none, .low, some "envs/**/*.yaml", .requiredKey "x"⟩
        "envs/prod/config.yaml" = true ∧
     rule_applies_to_file ⟨"r1", none, .low, some "envs/**/*.yaml", .requiredKey "x"⟩
        "other/prod/config.yaml" = false) := by
  refine ⟨?_, ?_, by decide⟩
  · intro h
    simp [rule_applies_to_file, h]
  · intro pat hp
    constructor
    · intro hc
      have hb : (strContainsChar pat (Char.ofNat 0x2f) || strContainsSub pat "**") = true := by
        rcases hc with hc | hc
        · simp [strContainsChar_iff.mpr hc]
        · simp [strContainsSub_iff.mpr hc]
      simp [rule_applies_to_file, hp, hb]
    · intro hc
      have h1 : strContainsChar pat (Char.ofNat 0x2f) = false := by
        rw [Bool.eq_false_iff]
        intro ht
        exact hc (Or.inl (strContainsChar_iff.mp ht))
      have h2 : strContainsSub pat "**" = false := by
        rw [Bool.eq_false_iff]
        intro ht
        exact hc (Or.inr (strContainsSub_iff.mp ht))
      simp only [rule_applies_to_file, hp, h1, h2, Bool.or_self, Bool.false_or, if_false]
      cases hf : fileName filePath <;> simp [hf]

/-- C6 witness: the base-name branch of the theorem applied to pattern
`*.yaml` and path deep/config.yaml. -/
theorem rule_applies_to_file_spec_witness :
    (¬(Char.ofNat 0x2f ∈ "*.yaml".data ∨ "**".data <:+: "*.yaml".data)) ∧
    rule_applies_to_file ⟨"r1", none, .low, some "*.yaml", .requiredKey "x"⟩
        "deep/config.yaml" =
      ((fileName "deep/config.yaml").map (globMatch "*.yaml")).getD false :=
  ⟨by decide,
   ((rule_applies_to_file_spec
      ⟨"r1", none, .low, some "*.yaml", .requiredKey "x"⟩
      "deep/config.yaml").2.1 "*.yaml" rfl).2 (by decide)⟩

-- ===== Config file parsing (src/policy/parser.rs, src/utils.rs) =====

/-- Models `Path::extension().and_then(|s| s.to_str()).unwrap_or("")`: the
part of the file name after its last dot; empty when the name has no dot,
when its only dot is the leading character, or when there is no file
name. -/
def extOf (p : String) : String :=
  match fileNameChars p with
  | none => ""
  | some n =>
    let rev := n.reverse
    if rev.contains (Char.ofNat 46) then
      let afterRev := rev.takeWhile (fun c => c != Char.ofNat 46)
      if afterRev.length + 1 = n.length then "" else String.mk afterRev.reverse
    else ""

/-- Check if a file is a supported config format (src/utils.rs
`is_config`): extension literally one of yml/yaml/json/toml. -/
def is_config (p : String) : Bool :=
  extOf p == "yml" || extOf p == "yaml" || extOf p == "json" || extOf p == "toml"

/-- The two failure modes of config parsing: unknown format hint, or
malformed syntax (the anyhow error message as text). -/
inductive ConfigError where
  | unsupportedFormat (ext : String)
  | parseError (msg : String)
deriving DecidableEq, Repr

/-- Parse a config file into a flat key-value map (src/policy/parser.rs
`parse_config_file`).  Reading from the filesystem is external, so the
file's text is the `content` parameter; the serde_yaml, serde_json and
toml crates are external, taken as parameters returning either the parsed
document or a syntax-error message. -/
def parse_config_file
    (parseYaml parseJson parseToml : String → Except String ConfigValue)
    (path content : String) : Except ConfigError FlatMap :=
  let ext := extOf path
  let value : Except ConfigError ConfigValue :=
    match ext with
    | "yaml" | "yml" => (parseYaml content).mapError ConfigError.parseError
    | "json" => (parseJson content).mapError ConfigError.parseError
    | "toml" => (parseToml content).mapError ConfigError.parseError
    | _ => .error (.unsupportedFormat ext)
  value.map (fun v => flatten "" v [])

/-- C7 counterexample: extension matching is case-SENSITIVE.  With total
family parsers and well-formed content, the path config.YAML fails with
UnsupportedFormat instead of resolving to the YAML family as the claim
states, and is_config rejects it; the lowercase spelling works. -/
theorem parse_config_file_case_sensitivity :
    parse_config_file (fun _ => .ok (.obj [])) (fun _ => .ok (.obj []))
        (fun _ => .ok (.obj [])) "config.YAML" "a: 1" =
      .error (.unsupportedFormat "YAML") ∧
    parse_config_file (fun _ => .ok (.obj [])) (fun _ => .ok (.obj []))
        (fun _ => .ok (.obj [])) "config.Json" "{}" =
      .error (.unsupportedFormat "Json") ∧
    is_config "config.YAML" = false ∧
    is_config "config.yaml" = true :=
  ⟨rfl, rfl, by decide, by decide⟩

/-- C7 (amended): the format hint is the file extension matched
case-sensitively — exactly the lowercase spellings yml/yaml resolve to
YAML, json to JSON, toml to TOML; any other hint (including uppercase or
mixed-case spellings) fails with UnsupportedFormat carrying that hint;
within a resolved family, malformed syntax fails with ParseError and
well-formed content is flattened.  is_config accepts exactly the four
lowercase extensions. -/
theorem parse_config_file_format_dispatch
    (py pj pt : String → Except String ConfigValue) (path content : String) :
    ((extOf path = "yaml" ∨ extOf path = "yml") →
      (∀ e, py content = .error e →
        parse_config_file py pj pt path content = .error (.parseError e)) ∧
      (∀ v, py content = .ok v →
        parse_config_file py pj pt path content = .ok (flatten "" v []))) ∧
    (extOf path = "json" →
      (∀ e, pj content = .error e →
        parse_config_file py pj pt path content = .error (.parseError e)) ∧
      (∀ v, pj content = .ok v →
        parse_config_file py pj pt path content = .ok (flatten "" v []))) ∧
    (extOf path = "toml" →
      (∀ e, pt content = .error e →
        parse_config_file py pj pt path content = .error (.parseError e)) ∧
      (∀ v, pt content = .ok v →
        parse_config_file py pj pt path content = .ok (flatten "" v []))) ∧
    (extOf path ∉ (["yaml", "yml", "json", "toml"] : List String) →
      parse_config_file py pj pt path content =
        .error (.unsupportedFormat (extOf path))) ∧
    (is_config path = true ↔
      extOf path ∈ (["yml", "yaml", "json", "toml"] : List String)) := by
  refine ⟨?_, ?_, ?_, ?_, ?_⟩
  · rintro (h | h) <;>
      exact ⟨fun e he => by simp [parse_config_file, h, he, Except.map, Except.mapError],
             fun v hv => by simp [parse_config_file, h, hv, Except.map, Except.mapError]⟩
  · intro h
    exact ⟨fun e he => by simp [parse_config_file, h, he, Except.map, Except.mapError],
           fun v hv => by simp [parse_config_file, h, hv, Except.map, Except.mapError]⟩
  · intro h
    exact ⟨fun e he => by simp [parse_config_file, h, he, Except.map, Except.mapError],
           fun v hv => by simp [parse_config_file, h, hv, Except.map, Except.mapError]⟩
  · intro h
    simp only [List.mem_cons, List.not_mem_nil, or_false, not_or] at h
    obtain ⟨h1, h2, h3, h4⟩ := h
    simp [parse_config_file, h1, h2, h3, h4, Except.map]
  · unfold is_config
    simp only [Bool.or_eq_true, beq_iff_eq, List.mem_cons, List.not_mem_nil, or_false]
    tauto

/-- C7 witness: the amended dispatch applied to config.yaml (success and
syntax-error outcomes) and to config.YAML (unsupported). -/
theorem parse_config_file_format_dispatch_witness :
    (extOf "config.yaml" = "yaml" ∨ extOf "config.yaml" = "yml") ∧
    ((fun _ : String => (Except.ok (ConfigValue.num 1) : Except String ConfigValue)) "x: 1" =
      .ok (.num 1)) ∧
    parse_config_file (fun _ => .ok (.num 1)) (fun _ => .error "boom")
        (fun _ => .error "boom") "config.yaml" "x: 1" =
      .ok (flatten "" (.num 1) []) ∧
    (extOf "config.YAML" ∉ (["yaml", "yml", "json", "toml"] : List String)) ∧
    parse_config_file (fun _ => .ok (.num 1)) (fun _ => .error "boom")
        (fun _ => .error "boom") "config.YAML" "x: 1" =
      .error (.unsupportedFormat (extOf "config.YAML")) :=
  ⟨Or.inl (by decide), rfl,
   ((parse_config_file_format_dispatch (fun _ => .ok (.num 1)) (fun _ => .error "boom")
      (fun _ => .error "boom") "config.yaml" "x: 1").1 (Or.inl (by decide))).2
     (.num 1) rfl,
   by decide,
   (parse_config_file_format_dispatch (fun _ => .ok (.num 1)) (fun _ => .error "boom")
      (fun _ => .error "boom") "config.YAML" "x: 1").2.2.2.1 (by decide)⟩

-- ===== Change aggregator (src/git/mod.rs) =====

/-- Changes to a single config file between two states
(src/git/models.rs `FileChanges`). -/
structure FileChanges where
  path : String
  keys_added : Nat
  keys_removed : Nat
  keys_changed : Nat
  changes : List KeyChange
  violations : List Violation
deriving DecidableEq, Repr

/-- src/git/mod.rs `build_file_changes`. -/
def build_file_changes (path : String) (changes : List KeyChange)
    (violations : List Violation) : FileChanges :=
  { path := path
    keys_added := (changes.filter (fun c => c.kind == .added)).length
    keys_removed := (changes.filter (fun c => c.kind == .removed)).length
    keys_changed := (changes.filter (fun c => c.kind == .changed)).length
    changes := changes
    violations := violations }

/-- src/git/mod.rs `evaluate_policy_on_map`: no policy or no parsed map
means no violations; otherwise every rule whose pattern applies to the
file is evaluated against the map. -/
def evaluate_policy_on_map (rm : String → String → Bool)
    (policyFile : Option PolicyFile) (configMap : Option FlatMap)
    (filePath : String) : List Violation :=
  match policyFile with
  | none => []
  | some pf =>
    match configMap with
    | none => []
    | some m =>
      pf.rules.filterMap (fun rule =>
        if rule_applies_to_file rule filePath then evaluate_rule rm rule filePath m
        else none)

/-- One file of the current commit inside the history walk
(src/git/mod.rs `git_log`, the loop over `config_files`): both sides'
texts (`none` when the file or the parent is absent) are parsed, `.ok()`
turning a parse failure into an absent map; the diff replaces an absent
map by the empty map; a non-empty diff triggers policy evaluation against
the optional new-side map.  Returns the optional FileChangeSet and this
file's contribution to `has_violations`.  Repository access is pre-fetched
into the content arguments, so the step is a total function — a parse
failure cannot abort it. -/
def git_log_file_step (rm : String → String → Bool)
    (parse : String → String → Except String FlatMap)
    (policyFile : Option PolicyFile) (filePath : String)
    (newContent oldContent : Option String) : Option FileChanges × Bool :=
  let ext := extOf filePath
  let newMap := newContent.bind (fun c => (parse c ext).toOption)
  let oldMap := oldContent.bind (fun c => (parse c ext).toOption)
  let changes := diff_config_maps (oldMap.getD []) (newMap.getD [])
  if changes.isEmpty then (none, false)
  else
    let violations := evaluate_policy_on_map rm policyFile newMap filePath
    (some (build_file_changes filePath changes violations), !violations.isEmpty)

/-- A file deleted in the current commit (present in the parent only)
inside the history walk (src/git/mod.rs `git_log`, the loop over
`parent_config_files`): the parent's text (outer `none` = no parent,
inner `none` = file absent there) is parsed, a failure skipping the file;
a non-empty diff against the empty map is recorded with an empty
violation list — deleted files are never policy-evaluated. -/
def git_log_deleted_step (parse : String → String → Except String FlatMap)
    (filePath : String) (parentContent : Option (Option String)) :
    Option FileChanges :=
  match parentContent with
  | some (some content) =>
    match parse content (extOf filePath) with
    | .ok oldMap =>
      let changes := diff_config_maps oldMap []
      if changes.isEmpty then none
      else some (build_file_changes filePath changes [])
    | .error _ => none
  | _ => none

/-- One file of the ref-to-ref diff (src/git/mod.rs `git_diff`, the loop
over `all_files`): both sides' texts are parsed with absence or failure
degraded to the empty map (`.ok()` then `unwrap_or_default`), the maps are
diffed, and a non-empty diff triggers policy evaluation that always
receives the target-side map (`Some(&map2)` — even when that side was
absent or unparseable and map2 is empty).  Returns the FileChangeSet with
this file's contribution to `has_violations`. -/
def git_diff_file_step (rm : String → String → Bool)
    (parse : String → String → Except String FlatMap)
    (policyFile : Option PolicyFile) (filePath : String)
    (content1 content2 : Option String) : Option (FileChanges × Bool) :=
  let ext := extOf filePath
  let map1 := (content1.bind (fun c => (parse c ext).toOption)).getD []
  let map2 := (content2.bind (fun c => (parse c ext).toOption)).getD []
  let changes := diff_config_maps map1 map2
  if changes.isEmpty then none
  else
    let violations := evaluate_policy_on_map rm policyFile (some map2) filePath
    some (build_file_changes filePath changes violations, !violations.isEmpty)

-- ===== Aggregator lemmas =====

theorem git_log_step_new_error {rm parse pf fp e c}
    (h : parse c (extOf fp) = .error e) (other : Option String) :
    git_log_file_step rm parse pf fp (some c) other =
      git_log_file_step rm parse pf fp none other := by
  simp [git_log_file_step, h, Except.toOption]

theorem git_log_step_old_error {rm parse pf fp e c}
    (h : parse c (extOf fp) = .error e) (other : Option String) :
    git_log_file_step rm parse pf fp other (some c) =
      git_log_file_step rm parse pf fp other none := by
  simp [git_log_file_step, h, Except.toOption]

theorem git_diff_step_side1_error {rm parse pf fp e c}
    (h : parse c (extOf fp) = .error e) (other : Option String) :
    git_diff_file_step rm parse pf fp (some c) other =
      git_diff_file_step rm parse pf fp none other := by
  simp [git_diff_file_step, h, Except.toOption]

theorem git_diff_step_side2_error {rm parse pf fp e c}
    (h : parse c (extOf fp) = .error e) (other : Option String) :
    git_diff_file_step rm parse pf fp other (some c) =
      git_diff_file_step rm parse pf fp other none := by
  simp [git_diff_file_step, h, Except.toOption]

theorem diff_config_maps_nil_right_ne {m : FlatMap} (h : m ≠ []) :
    diff_config_maps m [] ≠ [] := by
  obtain ⟨e, he⟩ := List.exists_mem_of_ne_nil m h
  intro hdiff
  have hmem : e.1 ∈ m.map Prod.fst := List.mem_map.mpr ⟨e, he, rfl⟩
  have hkey : e.1 ∈ allKeys m [] := mem_allKeys.mpr (Or.inl hmem)
  rw [diff_config_maps, List.filterMap_eq_nil_iff] at hdiff
  have hnone := hdiff e.1 hkey
  rw [changeAt_eq_none_iff] at hnone
  have hsome : (lookupKey m e.1).isSome := lookupKey_isSome_of_mem_keys hmem
  rw [hnone] at hsome
  simp [lookupKey] at hsome

/-- C4: a parse failure is local to its side and file: in both the history
walk and the ref-to-ref diff, a side whose text fails to parse behaves
exactly as an absent side — the step still runs (both steps are total
functions, so no error can propagate), the other side is parsed normally,
and the failing side contributes the empty flat map to the diff, as the
last conjunct shows explicitly for a ref-diff whose source side fails and
whose target side parses. -/
theorem parse_failure_degrades_to_empty
    (rm : String → String → Bool)
    (parse : String → String → Except String FlatMap)
    (pf : Option PolicyFile) (fp e cBad : String)
    (h : parse cBad (extOf fp) = .error e) :
    (∀ other, git_log_file_step rm parse pf fp (some cBad) other =
       git_log_file_step rm parse pf fp none other) ∧
    (∀ other, git_log_file_step rm parse pf fp other (some cBad) =
       git_log_file_step rm parse pf fp other none) ∧
    (∀ other, git_diff_file_step rm parse pf fp (some cBad) other =
       git_diff_file_step rm parse pf fp none other) ∧
    (∀ other, git_diff_file_step rm parse pf fp other (some cBad) =
       git_diff_file_step rm parse pf fp other none) ∧
    (∀ m2 c2, parse c2 (extOf fp) = .ok m2 →
      git_diff_file_step rm parse pf fp (some cBad) (some c2) =
        (if (diff_config_maps [] m2).isEmpty then none
         else some (build_file_changes fp (diff_config_maps [] m2)
             (evaluate_policy_on_map rm pf (some m2) fp),
           !(evaluate_policy_on_map rm pf (some m2) fp).isEmpty))) := by
  refine ⟨git_log_step_new_error h, git_log_step_old_error h,
    git_diff_step_side1_error h, git_diff_step_side2_error h, ?_⟩
  intro m2 c2 h2
  simp [git_diff_file_step, h, h2, Except.toOption]

/-- C4 witness: the theorem applied to a concrete two-outcome parser
failing on the text "bad". -/
theorem parse_failure_degrades_to_empty_witness :
    ((fun c _ : String => if c = "bad" then (Except.error "syntax" : Except String FlatMap)
        else Except.ok [("k", "1")]) "bad" (extOf "app.yaml") = Except.error "syntax") ∧
    git_log_file_step (fun _ _ => true)
        (fun c _ => if c = "bad" then .error "syntax" else .ok [("k", "1")])
        none "app.yaml" (some "bad") (some "good") =
      git_log_file_step (fun _ _ => true)
        (fun c _ => if c = "bad" then .error "syntax" else .ok [("k", "1")])
        none "app.yaml" none (some "good") :=
  ⟨rfl,
   (parse_failure_degrades_to_empty (fun _ _ => true)
      (fun c _ => if c = "bad" then .error "syntax" else .ok [("k", "1")])
      none "app.yaml" "syntax" "bad" rfl).1 (some "good")⟩

/-- C9: in the ref-to-ref diff a file present and parseable (to a
non-empty map) in the source ref but absent — or unparseable — in the
target ref is still policy-evaluated with the empty map as the target
side, so an applicable RequiredKey rule yields exactly one violation
(whose message contains "missing") and the step reports `true` for
`has_violations`; in the history walk, by contrast, any FileChangeSet
produced by the deleted-file branch carries an empty violation list. -/
theorem deleted_file_policy_asymmetry
    (rm : String → String → Bool)
    (parse : String → String → Except String FlatMap)
    (fp c1 : String) (m1 : FlatMap)
    (rid : String) (dsc : Option String) (sev : PolicySeverity) (k : String)
    (h1 : parse c1 (extOf fp) = .ok m1) (h2 : m1 ≠ []) :
    (∃ fc v,
      git_diff_file_step rm parse
        (some ⟨"p", none, [⟨rid, dsc, sev, none, .requiredKey k⟩]⟩) fp
        (some c1) none = some (fc, true) ∧
      fc.violations = [v] ∧ "missing".data <:+: v.message.data) ∧
    (∀ eB cB, parse cB (extOf fp) = .error eB →
      ∃ fc v,
        git_diff_file_step rm parse
          (some ⟨"p", none, [⟨rid, dsc, sev, none, .requiredKey k⟩]⟩) fp
          (some c1) (some cB) = some (fc, true) ∧
        fc.violations = [v] ∧ "missing".data <:+: v.message.data) ∧
    (∀ (parse2 : String → String → Except String FlatMap) fp2 pc fc,
      git_log_deleted_step parse2 fp2 pc = some fc → fc.violations = []) := by
  have hne : (diff_config_maps m1 []).isEmpty = false := by
    rw [List.isEmpty_eq_false_iff_exists_mem]
    obtain ⟨c, hc⟩ :=
      List.exists_mem_of_ne_nil _ (diff_config_maps_nil_right_ne h2)
    exact ⟨c, hc⟩
  have hmain : ∃ fc v,
      git_diff_file_step rm parse
        (some ⟨"p", none, [⟨rid, dsc, sev, none, .requiredKey k⟩]⟩) fp
        (some c1) none = some (fc, true) ∧
      fc.violations = [v] ∧ "missing".data <:+: v.message.data := by
    refine ⟨build_file_changes fp (diff_config_maps m1 [])
        [{ rule_id := rid, rule_description := dsc, severity := sev, file := fp,
           key := k, message := "Required key \x27" ++ k ++ "\x27 is missing" }],
      { rule_id := rid, rule_description := dsc, severity := sev, file := fp,
        key := k, message := "Required key \x27" ++ k ++ "\x27 is missing" },
      ?_, rfl, missing_infix_message k⟩
    simp [git_diff_file_step, h1, Except.toOption, hne, evaluate_policy_on_map,
      rule_applies_to_file, evaluate_rule, keyExistsIn, containsKey]
  refine ⟨hmain, ?_, ?_⟩
  · intro eB cB hB
    rw [git_diff_step_side2_error hB (some c1)]
    exact hmain
  · intro parse2 fp2 pc fc hstep
    unfold git_log_deleted_step at hstep
    rcases pc with _ | pc
    · exact Option.noConfusion hstep
    rcases pc with _ | content
    · exact Option.noConfusion hstep
    have hstep2 : (match parse2 content (extOf fp2) with
        | Except.ok oldMap =>
          if (diff_config_maps oldMap []).isEmpty then none
          else some (build_file_changes fp2 (diff_config_maps oldMap []) [])
        | Except.error _ => none) = some fc := hstep
    rcases hp : parse2 content (extOf fp2) with eB | oldMap
    · rw [hp] at hstep2
      exact Option.noConfusion hstep2
    · rw [hp] at hstep2
      have hstep3 : (if (diff_config_maps oldMap []).isEmpty then none
          else some (build_file_changes fp2 (diff_config_maps oldMap []) [])) =
            some fc := hstep2
      by_cases hde : (diff_config_maps oldMap []).isEmpty
      · rw [if_pos hde] at hstep3
        exact Option.noConfusion hstep3
      · rw [if_neg hde] at hstep3
        cases Option.some.inj hstep3
        rfl

/-- C9 witness: the theorem applied to a constant parser yielding the
one-entry map {"a": "1"} and a policy with one unscoped RequiredKey rule. -/
theorem deleted_file_policy_asymmetry_witness :
    ((fun _ _ : String => (Except.ok [("a", "1")] : Except String FlatMap)) "x"
        (extOf "f.yaml") = Except.ok [("a", "1")]) ∧
    ([("a", "1")] : FlatMap) ≠ [] ∧
    (∃ fc v,
      git_diff_file_step (fun _ _ => true) (fun _ _ => .ok [("a", "1")])
        (some ⟨"p", none, [⟨"r1", none, .high, none, .requiredKey "logging"⟩]⟩)
        "f.yaml" (some "x") none = some (fc, true) ∧
      fc.violations = [v] ∧ "missing".data <:+: v.message.data) :=
  ⟨rfl, by decide,
   (deleted_file_policy_asymmetry (fun _ _ => true) (fun _ _ => .ok [("a", "1")])
      "f.yaml" "x" [("a", "1")] "r1" none .high "logging" rfl (by decide)).1⟩

end Configtrace
